import Mathlib

/-! Verification of the Gadget-IPTV playlist/EPG core.

Shallow embedding of the four core components of the repository
(`src/utils/epg.ts`): `normalizeChannelName`, `parseM3U`,
`findProgramForChannel` and `fetchGatoEPG`, together with proofs of the
specification claims about them.

Strings are modelled as Lean `String`/`List Char` (one entry per Unicode
code point).  Host (platform) functions used by the source —
`String.prototype.toLowerCase`, `String.prototype.normalize("NFD")`,
`String.prototype.trim`, `fetch`, `DOMParser` — are external collaborators
of the repository; they are modelled below by executable Lean functions
that agree with the platform behaviour on the fragment the proofs touch
(in particular both `toLowerCase` and NFD are the identity on ASCII).
-/

namespace IPTV

/-- Model of the JavaScript whitespace class used by `String.prototype.trim`
(ECMAScript WhiteSpace ∪ LineTerminator: tab, LF, VT, FF, CR, space, NBSP,
ZWNBSP and the Unicode space separators). -/
def isJsWhitespace (c : Char) : Bool :=
  (9 ≤ c.toNat && c.toNat ≤ 13) || c.toNat == 32 || c.toNat == 160 ||
  c.toNat == 0x1680 || (0x2000 ≤ c.toNat && c.toNat ≤ 0x200A) ||
  c.toNat == 0x2028 || c.toNat == 0x2029 || c.toNat == 0x202F ||
  c.toNat == 0x205F || c.toNat == 0x3000 || c.toNat == 0xFEFF

/-- Drop JS whitespace from the front of a character list. -/
def trimLeft (l : List Char) : List Char :=
  l.dropWhile isJsWhitespace

/-- Drop JS whitespace from the back of a character list. -/
def trimRight (l : List Char) : List Char :=
  (l.reverse.dropWhile isJsWhitespace).reverse

/-- Model of `String.prototype.trim` on character lists. -/
def jsTrim (l : List Char) : List Char :=
  trimRight (trimLeft l)

/-- Scan of `needle.isPrefixOf hay` over all suffixes: JavaScript
`hay.includes(needle)` (substring containment). -/
def containsSub (hay needle : List Char) : Bool :=
  (List.range (hay.length + 1)).any (fun i => needle.isPrefixOf (hay.drop i))

/-- First index at which `needle` occurs in `hay` (JS `indexOf`),
`none` when absent. -/
def findSub (hay needle : List Char) : Option Nat :=
  (List.range (hay.length + 1)).find? (fun i => needle.isPrefixOf (hay.drop i))

/-- Index of the last occurrence of character `c` (JS `lastIndexOf`),
`none` when absent. -/
def lastIdx (c : Char) : List Char → Option Nat
  | [] => none
  | x :: xs =>
    match lastIdx c xs with
    | some i => some (i + 1)
    | none => if x = c then some 0 else none

/-- JS `str.split(sep)` on character lists (always returns at least one,
possibly empty, piece). -/
def splitOnChar (sep : Char) : List Char → List (List Char)
  | [] => [[]]
  | c :: cs =>
    if c = sep then [] :: splitOnChar sep cs
    else
      match splitOnChar sep cs with
      | [] => [[c]]
      | l :: ls => (c :: l) :: ls

/-- ASCII lower-casing of a single character (`A`–`Z` to `a`–`z`). -/
def asciiLower (c : Char) : Char :=
  if 'A' ≤ c ∧ c ≤ 'Z' then Char.ofNat (c.toNat + 32) else c

/-- Simple lower-case mappings for the precomposed Latin-1 letters the
platform `toLowerCase` handles beyond ASCII (the fragment exercised here). -/
def latinLowerTable : List (Char × Char) :=
  [('À', 'à'), ('Á', 'á'), ('Â', 'â'), ('Ã', 'ã'), ('Ä', 'ä'), ('Å', 'å'),
   ('Ç', 'ç'), ('È', 'è'), ('É', 'é'), ('Ê', 'ê'), ('Ë', 'ë'),
   ('Ì', 'ì'), ('Í', 'í'), ('Î', 'î'), ('Ï', 'ï'), ('Ñ', 'ñ'),
   ('Ò', 'ò'), ('Ó', 'ó'), ('Ô', 'ô'), ('Õ', 'õ'), ('Ö', 'ö'),
   ('Ù', 'ù'), ('Ú', 'ú'), ('Û', 'û'), ('Ü', 'ü'), ('Ý', 'ý')]

/-- Model of `String.prototype.toLowerCase` per character: the Unicode
mapping is the identity on every ASCII character outside `A`–`Z`, and maps
the tabled precomposed Latin letters to their lower-case forms. -/
def jsToLowerChar (c : Char) : Char :=
  if c.toNat < 0x80 then asciiLower c
  else ((latinLowerTable.lookup c).getD c)

/-- Canonical (NFD) decompositions of the precomposed lower-case Latin
letters exercised here; NFD is the identity on ASCII. -/
def nfdTable : List (Char × List Char) :=
  [('à', ['a', '̀']), ('á', ['a', '́']), ('â', ['a', '̂']),
   ('ã', ['a', '̃']), ('ä', ['a', '̈']), ('å', ['a', '̊']),
   ('ç', ['c', '̧']), ('è', ['e', '̀']), ('é', ['e', '́']),
   ('ê', ['e', '̂']), ('ë', ['e', '̈']), ('ì', ['i', '̀']),
   ('í', ['i', '́']), ('î', ['i', '̂']), ('ï', ['i', '̈']),
   ('ñ', ['n', '̃']), ('ò', ['o', '̀']), ('ó', ['o', '́']),
   ('ô', ['o', '̂']), ('õ', ['o', '̃']), ('ö', ['o', '̈']),
   ('ù', ['u', '̀']), ('ú', ['u', '́']), ('û', ['u', '̂']),
   ('ü', ['u', '̈']), ('ý', ['y', '́']), ('ÿ', ['y', '̈'])]

/-- Model of `String.prototype.normalize("NFD")` per character. -/
def nfdChar (c : Char) : List Char :=
  if c.toNat < 0x80 then [c]
  else ((nfdTable.lookup c).getD [c])

/-- NFD expansion of a whole character list. -/
def nfdExpand : List Char → List Char
  | [] => []
  | c :: cs => nfdChar c ++ nfdExpand cs

/-- The combining-mark range removed by the source's first regex,
`/[̀-ͯ]/g`. -/
def isCombiningMark (c : Char) : Bool :=
  0x300 ≤ c.toNat && c.toNat ≤ 0x36F

/-- The character class kept by the source's second regex:
the complement of `/[^a-z0-9]/g`. -/
def isLowerAlnum (c : Char) : Bool :=
  ('a' ≤ c && c ≤ 'z') || ('0' ≤ c && c ≤ '9')

/-- Embedding of `normalizeChannelName` (src/utils/epg.ts, lines 7–14):
lower-case, NFD-decompose, strip combining accents, strip everything that
is not a lower-case ASCII letter or digit; empty input maps to empty. -/
def normalizeChannelName (name : String) : String :=
  if name = "" then ""
  else
    ((((name.data.map jsToLowerChar) |> nfdExpand).filter
        (fun c => !isCombiningMark c)).filter isLowerAlnum).asString

theorem isLowerAlnum_of_mem_normalize {name : String} {c : Char}
    (h : c ∈ (normalizeChannelName name).data) : isLowerAlnum c = true := by
  unfold normalizeChannelName at h
  by_cases hn : name = ""
  · simp [hn] at h
  · simp only [if_neg hn, List.asString] at h
    exact (List.mem_filter.mp h).2

theorem toNat_lt_of_isLowerAlnum {c : Char} (h : isLowerAlnum c = true) :
    c.toNat < 0x80 := by
  unfold isLowerAlnum at h
  simp only [Bool.or_eq_true, Bool.and_eq_true, decide_eq_true_eq] at h
  rcases h with ⟨_, h2⟩ | ⟨_, h2⟩ <;>
    calc c.toNat ≤ _ := h2
    _ < 0x80 := by decide

theorem jsToLowerChar_fix {c : Char} (h : isLowerAlnum c = true) :
    jsToLowerChar c = c := by
  have hlt := toNat_lt_of_isLowerAlnum h
  unfold jsToLowerChar asciiLower
  rw [if_pos hlt]
  have : ¬('A' ≤ c ∧ c ≤ 'Z') := by
    unfold isLowerAlnum at h
    simp only [Bool.or_eq_true, Bool.and_eq_true, decide_eq_true_eq] at h
    rintro ⟨hA, hZ⟩
    rcases h with ⟨h1, _⟩ | ⟨_, h2⟩
    · exact absurd (le_trans h1 hZ) (by decide)
    · exact absurd (le_trans hA h2) (by decide)
  rw [if_neg this]

theorem nfdChar_fix {c : Char} (h : isLowerAlnum c = true) :
    nfdChar c = [c] := by
  unfold nfdChar
  rw [if_pos (toNat_lt_of_isLowerAlnum h)]

theorem not_combining_of_isLowerAlnum {c : Char} (h : isLowerAlnum c = true) :
    isCombiningMark c = false := by
  have hlt := toNat_lt_of_isLowerAlnum h
  unfold isCombiningMark
  simp only [Bool.and_eq_false_iff, decide_eq_false_iff_not, not_le]
  left
  omega

theorem nfdExpand_fix {l : List Char} (h : ∀ c ∈ l, isLowerAlnum c = true) :
    nfdExpand l = l := by
  induction l with
  | nil => rfl
  | cons c cs ih =>
    simp only [nfdExpand, nfdChar_fix (h c (List.mem_cons_self c cs)),
      List.cons_append, List.nil_append, List.cons.injEq, true_and]
    exact ih (fun d hd => h d (List.mem_cons_of_mem c hd))

theorem normalize_fix_of_all_alnum {l : List Char}
    (h : ∀ c ∈ l, isLowerAlnum c = true) :
    ((((l.map jsToLowerChar) |> nfdExpand).filter
        (fun c => !isCombiningMark c)).filter isLowerAlnum) = l := by
  have hmap : l.map jsToLowerChar = l := by
    rw [List.map_congr_left (fun c hc => jsToLowerChar_fix (h c hc))]
    exact List.map_id l
  have h1 : ((l.map jsToLowerChar) |> nfdExpand).filter
      (fun c => !isCombiningMark c) = l := by
    rw [hmap, nfdExpand_fix h]
    exact List.filter_eq_self.mpr
      (fun c hc => by simp [not_combining_of_isLowerAlnum (h c hc)])
  rw [h1]
  exact List.filter_eq_self.mpr h

theorem normalize_eq_self {s : String} (hs : s ≠ "")
    (h : ∀ c ∈ s.data, isLowerAlnum c = true) :
    normalizeChannelName s = s := by
  unfold normalizeChannelName
  rw [if_neg hs, normalize_fix_of_all_alnum h]
  cases s
  rfl

/-- C8: `normalizeChannelName` is idempotent — applying it twice gives
the same result as applying it once, for every string. -/
theorem normalizeChannelName_idempotent (x : String) :
    normalizeChannelName (normalizeChannelName x) = normalizeChannelName x := by
  by_cases h : normalizeChannelName x = ""
  · rw [h]; rfl
  · exact normalize_eq_self h (fun c hc => isLowerAlnum_of_mem_normalize hc)

/-! ## ChannelMatcher: `findProgramForChannel` (src/utils/epg.ts, lines 120–147)

An EPG mapping (a JS object `Record<string, string>`) is modelled as an
association list in the object's own key-iteration order; `Object.keys`
is `keysOf`, property read is `List.lookup`. -/

/-- Model of `Object.keys` of the mapping, in the mapping's own order. -/
def keysOf (m : List (String × String)) : List String :=
  m.map Prod.fst

/-- JS truthiness of an optional string property read
(`undefined` and `""` are falsy). -/
def truthy : Option String → Bool
  | none => false
  | some v => v ≠ ""

/-- Embedding of `findProgramForChannel`: guard on empty name and empty
normalized key, then exact lookup guarded by JS truthiness
(`if (epgMap[searchKey]) return epgMap[searchKey]`), then the two fuzzy
loops over `Object.keys(epgMap)` with `return epgMap[key]` on the first
hit: direction A (`searchKey.includes(key) && key.length > 3`) before
direction B (`key.includes(searchKey) && searchKey.length > 3`). -/
def findProgramForChannel (channelName : String)
    (epgMap : List (String × String)) : Option String :=
  if channelName = "" then none
  else
    let searchKey := normalizeChannelName channelName
    if searchKey = "" then none
    else
      let exact := List.lookup searchKey epgMap
      if truthy exact then exact
      else
        match (keysOf epgMap).find?
            (fun key => containsSub searchKey.data key.data
              && decide (key.length > 3)) with
        | some key => List.lookup key epgMap
        | none =>
          match (keysOf epgMap).find?
              (fun key => containsSub key.data searchKey.data
                && decide (searchKey.length > 3)) with
          | some key => List.lookup key epgMap
          | none => none

/-- The fuzzy cascade of the resolver, written from the (amended) spec's
words: return the entry of the first mapping pair whose key is contained
in `searchKey` with key length > 3, else of the first pair whose key
contains `searchKey` with `searchKey` length > 3, else nothing. -/
def resolveFuzzySpec (searchKey : String)
    (epgMap : List (String × String)) : Option String :=
  match epgMap.find?
      (fun p => containsSub searchKey.data p.1.data
        && decide (p.1.length > 3)) with
  | some p => some p.2
  | none =>
    match epgMap.find?
        (fun p => containsSub p.1.data searchKey.data
          && decide (searchKey.length > 3)) with
    | some p => some p.2
    | none => none

/-- The resolver written from the amended spec's words: no match on an
empty/normalized-empty name; the exact entry when it exists **with a
non-empty program title**; otherwise the fuzzy cascade. -/
def resolveProgramSpec (channelName : String)
    (epgMap : List (String × String)) : Option String :=
  if channelName = "" then none
  else
    let searchKey := normalizeChannelName channelName
    if searchKey = "" then none
    else
      match List.lookup searchKey epgMap with
      | some v => if v = "" then resolveFuzzySpec searchKey epgMap else some v
      | none => resolveFuzzySpec searchKey epgMap

theorem exact_step (o fz : Option String) :
    (if truthy o then o else fz)
      = (match o with
         | some v => if v = "" then fz else some v
         | none => fz) := by
  cases o with
  | none => simp [truthy]
  | some v => by_cases hv : v = "" <;> simp [truthy, hv]

theorem find_keys_lookup (p : String → Bool) (m : List (String × String))
    (fb : Option String) :
    (match (keysOf m).find? p with
     | some key => List.lookup key m
     | none => fb) =
    (match m.find? (fun q => p q.1) with
     | some q => some q.2
     | none => fb) := by
  induction m with
  | nil => rfl
  | cons hd tl ih =>
    obtain ⟨k0, v0⟩ := hd
    cases hp : p k0 with
    | true => simp [keysOf, List.find?, hp, List.lookup]
    | false =>
      have hfind1 : (keysOf ((k0, v0) :: tl)).find? p = (keysOf tl).find? p := by
        simp [keysOf, List.find?, hp]
      have hfind2 : ((k0, v0) :: tl).find? (fun q => p q.1)
          = tl.find? (fun q => p q.1) := by
        simp [List.find?, hp]
      rw [hfind1, hfind2, ← ih]
      cases hf : (keysOf tl).find? p with
      | none => rfl
      | some k =>
        have hpk : p k = true := List.find?_some hf
        have hne : (k == k0) = false := by
          apply beq_false_of_ne
          intro h
          rw [h] at hpk
          rw [hpk] at hp
          exact Bool.noConfusion hp
        simp [List.lookup, hne]

theorem length_le_of_containsSub {hay needle : List Char}
    (h : containsSub hay needle = true) : needle.length ≤ hay.length := by
  unfold containsSub at h
  rcases List.any_eq_true.mp h with ⟨i, _, hpre⟩
  calc needle.length ≤ (hay.drop i).length :=
        (List.isPrefixOf_iff_prefix.mp hpre).length_le
    _ ≤ hay.length := by rw [List.length_drop]; omega

/-- C1 (amended): `findProgramForChannel` follows the specified
priority order with the exact-lookup step taken only when the exact entry
has a *non-empty* title (JS truthiness); moreover, when the normalized
search key has length at most 3, any returned program comes from the exact
entry — containment never fires for short keys. -/
theorem findProgramForChannel_spec (channelName : String)
    (epgMap : List (String × String)) :
    findProgramForChannel channelName epgMap
      = resolveProgramSpec channelName epgMap ∧
    ((normalizeChannelName channelName).length ≤ 3 →
      ∀ v, findProgramForChannel channelName epgMap = some v →
        List.lookup (normalizeChannelName channelName) epgMap = some v) := by
  constructor
  · unfold findProgramForChannel resolveProgramSpec resolveFuzzySpec
    by_cases h1 : channelName = ""
    · simp [h1]
    · simp only [if_neg h1]
      by_cases h2 : normalizeChannelName channelName = ""
      · simp [h2]
      · simp only [if_neg h2]
        rw [exact_step, find_keys_lookup, find_keys_lookup]
  · intro hlen v hv
    unfold findProgramForChannel at hv
    by_cases h1 : channelName = ""
    · simp [h1] at hv
    · simp only [if_neg h1] at hv
      by_cases h2 : normalizeChannelName channelName = ""
      · simp [h2] at hv
      · simp only [if_neg h2] at hv
        by_cases ht : truthy (List.lookup (normalizeChannelName channelName) epgMap) = true
        · rw [if_pos ht] at hv; exact hv
        · rw [if_neg ht] at hv
          exfalso
          cases hfa : (keysOf epgMap).find?
              (fun key => containsSub (normalizeChannelName channelName).data key.data
                && decide (key.length > 3)) with
          | some k =>
            have hk := List.find?_some hfa
            simp only [Bool.and_eq_true, decide_eq_true_eq] at hk
            obtain ⟨hc, hkey⟩ := hk
            have hle := length_le_of_containsSub hc
            have e1 : (normalizeChannelName channelName).length
                = (normalizeChannelName channelName).data.length := rfl
            have e2 : k.length = k.data.length := rfl
            omega
          | none =>
            rw [hfa] at hv
            cases hfb : (keysOf epgMap).find?
                (fun key => containsSub key.data (normalizeChannelName channelName).data
                  && decide ((normalizeChannelName channelName).length > 3)) with
            | some k =>
              have hk := List.find?_some hfb
              simp only [Bool.and_eq_true, decide_eq_true_eq] at hk
              omega
            | none =>
              rw [hfb] at hv
              exact Option.noConfusion hv

/-- Witness for `findProgramForChannel_spec` at a concrete short channel
name and mapping with a non-empty title. -/
theorem findProgramForChannel_spec_witness :
    findProgramForChannel "ab" [("ab", "X")]
      = resolveProgramSpec "ab" [("ab", "X")] ∧
    List.lookup (normalizeChannelName "ab") [("ab", "X")] = some "X" :=
  ⟨(findProgramForChannel_spec "ab" [("ab", "X")]).1,
   (findProgramForChannel_spec "ab" [("ab", "X")]).2 (by decide) "X" (by decide)⟩

/-- Counterexample to C1 as stated: the exact entry for the normalized
search key `"ab"` exists (with the empty string as its title), yet the
resolver returns no match — the source guards the exact lookup with JS
truthiness, not existence. -/
theorem findProgramForChannel_empty_title_cex :
    normalizeChannelName "ab" = "ab" ∧
    List.lookup (normalizeChannelName "ab") [("ab", "")] = some "" ∧
    findProgramForChannel "ab" [("ab", "")] = none := by
  refine ⟨by decide, by decide, by decide⟩

/-! ## PlaylistParser: `parseM3U` (src/utils/epg.ts, lines 149–219)

`Math.random().toString(36).substr(2, 9)` — the id generator — is an
external nondeterministic collaborator; it is modelled as a stream
`ids : Nat → String` of its successive return values, one drawn per
emitted channel (the k-th emitted channel draws `ids k`). -/

/-- The `Channel` record of src/unnamed/part_000 (`types.ts`), with the
fields `parseM3U` fills. -/
structure Channel where
  id : String
  url : String
  name : String
  group : String
  logo : Option String
deriving DecidableEq, Repr

/-- Test `line.startsWith('#EXTINF:')`. -/
def isExtinfLine (l : List Char) : Bool :=
  "#EXTINF:".data.isPrefixOf l

/-- The `#EXTINF:` name extraction: take the substring after the prefix
(`line.substring(8)`), find the last comma, and return the trimmed text
after it; `none` when the line has no comma after the prefix. -/
def extinfName (l : List Char) : Option (List Char) :=
  let info := l.drop 8
  match lastIdx ',' info with
  | some i => some (jsTrim (info.drop (i + 1)))
  | none => none

/-- Model of `line.match` against `attr="([^"]*)"` for a literal attribute name: first
occurrence of `attr="` anywhere in the line, capturing up to the next
double quote; `none` when the pattern never matches. -/
def extractAttr (attr l : List Char) : Option (List Char) :=
  match findSub l (attr ++ ['=', '"']) with
  | none => none
  | some i =>
    let rest := l.drop (i + attr.length + 2)
    if rest.contains '"' then some (rest.takeWhile (fun c => c ≠ '"'))
    else none

/-- The URL-line heuristic: `line.length > 5 && (line.includes('http') ||
line.includes('.') || line.includes(':'))`. -/
def looksLikeUrl (l : List Char) : Bool :=
  decide (l.length > 5) &&
    (containsSub l "http".data || l.contains '.' || l.contains ':')

/-- Name derivation for a URL line with no usable pending name: last
`/`-segment of the URL, text before its first `.`; the generic
`Channel {n+1}` when the segment is missing/empty or the derived token is
longer than 20 characters. -/
def deriveName (line : List Char) (n : Nat) : List Char :=
  let generic := ("Channel " ++ Nat.repr (n + 1)).data
  let fn :=
    match (splitOnChar '/' line).getLast? with
    | some lp => if lp.isEmpty then generic else lp.takeWhile (fun c => c ≠ '.')
    | none => generic
  if fn.length > 20 then generic else fn

/-- Construction of the emitted `Channel` for a URL line (`playlist.push`
block): `n` is the number of channels already emitted
(`playlist.length`). A pending name that is absent *or empty* (JS
truthiness of `finalName`) falls back to the derived name; an absent or
empty pending group falls back to `"General"` (`currentGroup || 'General'`). -/
def mkChannel (ids : Nat → String) (n : Nat) (line : List Char)
    (curName curGroup curLogo : Option (List Char)) : Channel :=
  let finalName : List Char :=
    match curName with
    | some nm => if nm.isEmpty then deriveName line n else nm
    | none => deriveName line n
  { id := ids n
    url := line.asString
    name := finalName.asString
    group :=
      match curGroup with
      | some g => if g.isEmpty then "General" else g.asString
      | none => "General"
    logo := curLogo.map List.asString }

/-- The line loop of `parseM3U`: trim, skip blanks, `#EXTINF:` updates the
pending metadata, other `#` lines are ignored, URL-looking lines emit a
channel and reset the pending metadata, anything else is skipped. -/
def parseLines (ids : Nat → String) :
    List (List Char) → Option (List Char) → Option (List Char) →
      Option (List Char) → List Channel → List Channel
  | [], _, _, _, acc => acc
  | l :: ls, curName, curGroup, curLogo, acc =>
    let line := jsTrim l
    if line.isEmpty then parseLines ids ls curName curGroup curLogo acc
    else if isExtinfLine line then
      let newName :=
        match extinfName line with
        | some nm => some nm
        | none => curName
      let newLogo :=
        match extractAttr "tvg-logo".data line with
        | some v => some v
        | none => curLogo
      let newGroup :=
        match extractAttr "group-title".data line with
        | some v => some v
        | none => curGroup
      parseLines ids ls newName newGroup newLogo acc
    else if line.headD ' ' = '#' then
      parseLines ids ls curName curGroup curLogo acc
    else if looksLikeUrl line then
      parseLines ids ls none none none
        (acc ++ [mkChannel ids acc.length line curName curGroup curLogo])
    else
      parseLines ids ls curName curGroup curLogo acc

/-- The line sequence seen by the loop: carriage returns removed
(`content.replace(/\r/g, '')`), then split on `\n`. -/
def jsLines (content : String) : List (List Char) :=
  splitOnChar '\n' (content.data.filter (fun c => c ≠ '\r'))

/-- Embedding of `parseM3U`: empty (falsy) content yields no channels,
otherwise the line loop runs with empty pending metadata. -/
def parseM3U (ids : Nat → String) (content : String) : List Channel :=
  if content = "" then []
  else parseLines ids (jsLines content) none none none []

/-- Run of `parseM3U` at an optional argument: `parseM3U(undefined)` takes the
same falsy guard as the empty string. -/
def parseM3UOpt (ids : Nat → String) : Option String → List Channel
  | none => []
  | some content => parseM3U ids content

/-- The claim's counting predicate on an input line: non-blank, does not
start with `#`, and looks like a URL (length > 5 and containing `http`,
`.` or `:`). -/
def urlLineSpec (l : List Char) : Bool :=
  let t := jsTrim l
  (!t.isEmpty) && (!(t.headD ' ' == '#')) && looksLikeUrl t

theorem head_hash_of_extinf {t : List Char} (h : isExtinfLine t = true) :
    (t.headD ' ' == '#') = true := by
  unfold isExtinfLine at h
  cases t with
  | nil => exact absurd h (by decide)
  | cons c cs =>
    have hc : '#' = c := by
      rw [show ("#EXTINF:".data) = '#' :: "EXTINF:".data from rfl] at h
      simp only [List.isPrefixOf, Bool.and_eq_true] at h
      exact eq_of_beq h.1
    subst hc
    rfl

theorem bool_eq_false {b : Bool} (h : ¬ b = true) : b = false := by
  cases b
  · rfl
  · exact absurd rfl h

theorem parseLines_urls (ids : Nat → String) (lines : List (List Char)) :
    ∀ curName curGroup curLogo acc,
    (parseLines ids lines curName curGroup curLogo acc).map Channel.url
      = acc.map Channel.url
        ++ (lines.filter urlLineSpec).map (fun l => (jsTrim l).asString) := by
  induction lines with
  | nil => intro n g lg acc; simp [parseLines]
  | cons l ls ih =>
    intro n g lg acc
    simp only [parseLines]
    by_cases hb : (jsTrim l).isEmpty = true
    · rw [if_pos hb]
      have hspec : urlLineSpec l = false := by
        simp only [urlLineSpec]
        rw [hb]
        rfl
      rw [List.filter_cons, hspec, if_neg (by simp)]
      exact ih n g lg acc
    · rw [if_neg hb]
      by_cases hext : isExtinfLine (jsTrim l) = true
      · rw [if_pos hext]
        have hspec : urlLineSpec l = false := by
          simp only [urlLineSpec]
          rw [head_hash_of_extinf hext, bool_eq_false hb]
          rfl
        rw [List.filter_cons, hspec, if_neg (by simp)]
        exact ih _ _ _ acc
      · rw [if_neg hext]
        by_cases hh : (jsTrim l).headD ' ' = '#'
        · rw [if_pos hh]
          have hbeq : ((jsTrim l).headD ' ' == '#') = true := by
            rw [hh]
            rfl
          have hspec : urlLineSpec l = false := by
            simp only [urlLineSpec]
            rw [hbeq, bool_eq_false hb]
            rfl
          rw [List.filter_cons, hspec, if_neg (by simp)]
          exact ih n g lg acc
        · rw [if_neg hh]
          by_cases hu : looksLikeUrl (jsTrim l) = true
          · rw [if_pos hu]
            have hbeq : ((jsTrim l).headD ' ' == '#') = false :=
              beq_eq_false_iff_ne.mpr hh
            have hspec : urlLineSpec l = true := by
              simp only [urlLineSpec]
              rw [hbeq, bool_eq_false hb, hu]
              rfl
            rw [List.filter_cons, hspec, if_pos rfl, ih]
            simp [mkChannel]
          · rw [if_neg hu]
            have hspec : urlLineSpec l = false := by
              simp only [urlLineSpec]
              rw [bool_eq_false hu, bool_eq_false hb]
              simp
            rw [List.filter_cons, hspec, if_neg (by simp)]
            exact ih n g lg acc

/-- C2: the channels returned by `parseM3U` are exactly the
URL-looking lines (non-blank, not `#`-initial, length > 5 with an
`http`/`.`/`:` mark), in input order — their `url` fields list those lines
(trimmed) in order, and the output length is the count of such lines; the
empty string and the undefined input both parse to the empty sequence. -/
theorem parseM3U_length_order (ids : Nat → String) (content : String) :
    (parseM3U ids content).map Channel.url
      = ((jsLines content).filter urlLineSpec).map (fun l => (jsTrim l).asString) ∧
    (parseM3U ids content).length
      = ((jsLines content).filter urlLineSpec).length ∧
    parseM3U ids "" = [] ∧
    parseM3UOpt ids none = [] := by
  have hmain : (parseM3U ids content).map Channel.url
      = ((jsLines content).filter urlLineSpec).map (fun l => (jsTrim l).asString) := by
    unfold parseM3U
    by_cases hc : content = ""
    · subst hc
      simp [jsLines, splitOnChar, urlLineSpec, jsTrim, trimLeft, trimRight]
    · rw [if_neg hc]
      simpa using parseLines_urls ids (jsLines content) none none none []
  refine ⟨hmain, ?_, rfl, rfl⟩
  have h1 : ((parseM3U ids content).map Channel.url).length
      = (((jsLines content).filter urlLineSpec).map (fun l => (jsTrim l).asString)).length := by
    rw [hmain]
  simpa using h1

theorem lastIdx_eq_none {c : Char} {l : List Char} (h : c ∉ l) :
    lastIdx c l = none := by
  induction l with
  | nil => rfl
  | cons x xs ih =>
    have hxs : c ∉ xs := fun hm => h (List.mem_cons_of_mem x hm)
    have hx : ¬ (x = c) := by
      intro he
      exact h (by rw [he]; exact List.mem_cons_self c xs)
    simp only [lastIdx]
    rw [ih hxs]
    simp [hx]

theorem lastIdx_append_comma (pre nm : List Char) (hc : ',' ∉ nm) :
    lastIdx ',' (pre ++ ',' :: nm) = some pre.length := by
  induction pre with
  | nil =>
    simp only [List.nil_append, lastIdx]
    rw [lastIdx_eq_none hc]
    simp
  | cons x xs ih =>
    have hstep : lastIdx ',' (x :: (xs ++ ',' :: nm))
        = match lastIdx ',' (xs ++ ',' :: nm) with
          | some i => some (i + 1)
          | none => if x = ',' then some 0 else none := rfl
    rw [List.cons_append, hstep, ih]
    simp

/-- C3 (amended): the display name of an `#EXTINF:` line is the
trimmed text after the *last* comma of the whole line — commas inside
attribute values (before the final separator) cannot corrupt it, but a
display name that itself contains commas is truncated to its final
segment; on the spec's own example the parsed name is therefore
`"Commas"`, while the attributes are still extracted independently
(`group` is `"News"` and `logo` is `"http://x/logo.png"`). -/
theorem extinf_name_after_last_comma (pre nm : List Char)
    (hc : ',' ∉ nm) (ht : jsTrim nm = nm) :
    extinfName ("#EXTINF:".data ++ pre ++ ',' :: nm) = some nm ∧
    (parseM3U (fun _ => "id")
        "#EXTINF:-1 group-title=\"News\" tvg-logo=\"http://x/logo.png\",Channel,With,Commas\nhttp://example.com/a.m3u8").map
        (fun c => (c.name, c.group, c.logo))
      = [("Commas", "News", some "http://x/logo.png")] := by
  constructor
  · simp only [extinfName]
    have hdrop : ("#EXTINF:".data ++ pre ++ ',' :: nm).drop 8 = pre ++ ',' :: nm := by
      rw [List.append_assoc]
      rw [show (8 : Nat) = ("#EXTINF:".data).length from rfl]
      exact List.drop_left _ _
    rw [hdrop, lastIdx_append_comma pre nm hc]
    have hdrop2 : (pre ++ ',' :: nm).drop (pre.length + 1) = nm := by
      rw [show pre ++ ',' :: nm = (pre ++ [',']) ++ nm by simp]
      rw [show pre.length + 1 = (pre ++ [',']).length by simp]
      exact List.drop_left _ _
    show some (jsTrim ((pre ++ ',' :: nm).drop (pre.length + 1))) = some nm
    rw [hdrop2, ht]
  · decide

/-- Witness for `extinf_name_after_last_comma`: a comma inside an
attribute value before the final separator, with a trimmed comma-free
display name. -/
theorem extinf_name_after_last_comma_witness :
    extinfName ("#EXTINF:".data ++ "-1 tvg-id=\"a,b\"".data
        ++ ',' :: "My Channel".data) = some "My Channel".data :=
  (extinf_name_after_last_comma "-1 tvg-id=\"a,b\"".data "My Channel".data
    (by decide) (by decide)).1

/-- Counterexample to C3 as stated: on the spec's example line the parsed
name is `"Commas"` (the text after the *last* comma of the line), not
`"Channel,With,Commas"` — commas embedded in the display name itself do
truncate it. -/
theorem parseM3U_comma_name_cex :
    (parseM3U (fun _ => "id")
        "#EXTINF:-1 group-title=\"News\" tvg-logo=\"http://x/logo.png\",Channel,With,Commas\nhttp://example.com/a.m3u8").map
        Channel.name = ["Commas"] ∧
    ("Commas" : String) ≠ "Channel,With,Commas" :=
  ⟨by decide, by decide⟩

theorem isEmpty_false_of_looksLikeUrl {l : List Char}
    (h : looksLikeUrl l = true) : l.isEmpty = false := by
  unfold looksLikeUrl at h
  have hlen : l.length > 5 := by
    have := (Bool.and_eq_true _ _).mp h
    exact of_decide_eq_true this.1
  cases l with
  | nil => simp at hlen
  | cons c cs => rfl

/-- C4: on a URL-looking line with no usable pending `#EXTINF:` name
(absent or empty), the emitted channel's name is the last `/`-segment of
the URL cut at its first `.` when that derived token has at most 20
characters, and the generic `"Channel n"` (n = 1-based running count,
including this channel) when the token is longer than 20 characters. -/
theorem url_line_derived_name (ids : Nat → String) (url : List Char)
    (rest : List (List Char)) (curName curGroup curLogo : Option (List Char))
    (acc : List Channel) (lp : List Char)
    (hname : curName = none ∨ curName = some [])
    (htrim : jsTrim url = url)
    (hhash : ¬ url.headD ' ' = '#')
    (hurl : looksLikeUrl url = true)
    (hlast : (splitOnChar '/' url).getLast? = some lp)
    (hlp : lp ≠ []) :
    parseLines ids (url :: rest) curName curGroup curLogo acc
      = parseLines ids rest none none none
          (acc ++ [mkChannel ids acc.length url curName curGroup curLogo]) ∧
    (mkChannel ids acc.length url curName curGroup curLogo).name
      = (if (lp.takeWhile (fun c => c ≠ '.')).length ≤ 20
         then (lp.takeWhile (fun c => c ≠ '.')).asString
         else "Channel " ++ Nat.repr (acc.length + 1)) := by
  constructor
  · simp only [parseLines, htrim]
    rw [if_neg (by rw [isEmpty_false_of_looksLikeUrl hurl]; exact Bool.noConfusion)]
    have hext : ¬ isExtinfLine url = true := by
      intro hcontra
      exact hhash (eq_of_beq (head_hash_of_extinf hcontra))
    rw [if_neg hext, if_neg hhash, if_pos hurl]
  · have hderive :
        (mkChannel ids acc.length url curName curGroup curLogo).name
          = (deriveName url acc.length).asString := by
      rcases hname with h | h <;>
        simp [mkChannel, h, List.isEmpty]
    rw [hderive]
    have hlpE : lp.isEmpty = false := by
      cases lp with
      | nil => exact absurd rfl hlp
      | cons c cs => rfl
    simp only [deriveName, hlast, hlpE, Bool.false_eq_true, if_false]
    by_cases h20 : (lp.takeWhile (fun c => c ≠ '.')).length > 20
    · rw [if_pos h20, if_neg (by omega)]
      show (("Channel " ++ Nat.repr (acc.length + 1)).data).asString = _
      rfl
    · rw [if_neg h20, if_pos (by omega)]

/-- Witness for `url_line_derived_name` at the spec's example URL:
the derived name is `"abc123"`. -/
theorem url_line_derived_name_witness :
    parseLines (fun _ => "id")
        ["http://cdn.example.com/streams/abc123.m3u8".data] none none none []
      = [mkChannel (fun _ => "id") 0
          "http://cdn.example.com/streams/abc123.m3u8".data none none none] ∧
    (mkChannel (fun _ => "id") 0
        "http://cdn.example.com/streams/abc123.m3u8".data none none none).name
      = "abc123" := by
  have T := url_line_derived_name (fun _ => "id")
    "http://cdn.example.com/streams/abc123.m3u8".data [] none none none []
    "abc123.m3u8".data (Or.inl rfl) (by decide) (by decide) (by decide)
    (by decide) (by decide)
  exact ⟨T.1, T.2.trans (by decide)⟩

/-- C10: an input whose URL line's last path segment starts with a dot
(`http://host/x/.m3u8`) produces a channel whose name is the *empty
string*: the derived token (text before the first `.`) is empty, has
length ≤ 20, and is not replaced by the generic placeholder. -/
theorem parseM3U_dot_segment_empty_name (ids : Nat → String) :
    (parseM3U ids "http://host/x/.m3u8").map Channel.name = [""] := by
  rfl

/-- The successive id-generator draws `ids s, ids (s+1), …` (`k` of them). -/
def genIds (ids : Nat → String) : Nat → Nat → List String
  | _, 0 => []
  | s, k + 1 => ids s :: genIds ids (s + 1) k

theorem parseLines_ids_eq (ids : Nat → String) (lines : List (List Char)) :
    ∀ curName curGroup curLogo acc,
    (parseLines ids lines curName curGroup curLogo acc).map Channel.id
      = acc.map Channel.id
        ++ genIds ids acc.length (lines.filter urlLineSpec).length := by
  induction lines with
  | nil => intro n g lg acc; simp [parseLines, genIds]
  | cons l ls ih =>
    intro n g lg acc
    simp only [parseLines]
    by_cases hb : (jsTrim l).isEmpty = true
    · rw [if_pos hb]
      have hspec : urlLineSpec l = false := by
        simp only [urlLineSpec]
        rw [hb]
        rfl
      rw [List.filter_cons, hspec, if_neg (by simp)]
      exact ih n g lg acc
    · rw [if_neg hb]
      by_cases hext : isExtinfLine (jsTrim l) = true
      · rw [if_pos hext]
        have hspec : urlLineSpec l = false := by
          simp only [urlLineSpec]
          rw [head_hash_of_extinf hext, bool_eq_false hb]
          rfl
        rw [List.filter_cons, hspec, if_neg (by simp)]
        exact ih _ _ _ acc
      · rw [if_neg hext]
        by_cases hh : (jsTrim l).headD ' ' = '#'
        · rw [if_pos hh]
          have hbeq : ((jsTrim l).headD ' ' == '#') = true := by
            rw [hh]
            rfl
          have hspec : urlLineSpec l = false := by
            simp only [urlLineSpec]
            rw [hbeq, bool_eq_false hb]
            rfl
          rw [List.filter_cons, hspec, if_neg (by simp)]
          exact ih n g lg acc
        · rw [if_neg hh]
          by_cases hu : looksLikeUrl (jsTrim l) = true
          · rw [if_pos hu]
            have hbeq : ((jsTrim l).headD ' ' == '#') = false :=
              beq_eq_false_iff_ne.mpr hh
            have hspec : urlLineSpec l = true := by
              simp only [urlLineSpec]
              rw [hbeq, bool_eq_false hb, hu]
              rfl
            rw [List.filter_cons, hspec, if_pos rfl, ih]
            simp [genIds, mkChannel, List.length_append]
          · rw [if_neg hu]
            have hspec : urlLineSpec l = false := by
              simp only [urlLineSpec]
              rw [bool_eq_false hu, bool_eq_false hb]
              simp
            rw [List.filter_cons, hspec, if_neg (by simp)]
            exact ih n g lg acc

/-- C6 (amended): the k-th emitted channel's id is exactly the k-th
draw of the id generator, so the ids are pairwise distinct *provided* the
draws used are pairwise distinct.  (`Math.random()` gives no such
guarantee: see the counterexample for a repeating draw sequence.) -/
theorem parseM3U_ids_fresh (ids : Nat → String) (content : String) :
    (parseM3U ids content).map Channel.id
      = genIds ids 0 ((jsLines content).filter urlLineSpec).length ∧
    ((genIds ids 0 ((jsLines content).filter urlLineSpec).length).Nodup →
      ((parseM3U ids content).map Channel.id).Nodup) := by
  have h1 : (parseM3U ids content).map Channel.id
      = genIds ids 0 ((jsLines content).filter urlLineSpec).length := by
    unfold parseM3U
    by_cases hc : content = ""
    · subst hc
      rfl
    · rw [if_neg hc]
      simpa using parseLines_ids_eq ids (jsLines content) none none none []
  exact ⟨h1, fun hnd => h1 ▸ hnd⟩

/-- Witness for `parseM3U_ids_fresh`: with the injective draw sequence
`0, 1, 2, …` the two parsed channels get distinct ids. -/
theorem parseM3U_ids_fresh_witness :
    (genIds (fun n => Nat.repr n) 0
        ((jsLines "http://aa.com/one.m3u8\nhttp://bb.com/two.m3u8").filter
          urlLineSpec).length).Nodup ∧
    ((parseM3U (fun n => Nat.repr n)
        "http://aa.com/one.m3u8\nhttp://bb.com/two.m3u8").map Channel.id).Nodup :=
  ⟨by decide, (parseM3U_ids_fresh (fun n => Nat.repr n)
      "http://aa.com/one.m3u8\nhttp://bb.com/two.m3u8").2 (by decide)⟩

/-- Counterexample to C6 as stated: `Math.random()` is not guaranteed to
return distinct values; when the modelled draw sequence repeats a token,
two distinct channels of the same parse share an id. -/
theorem parseM3U_constant_random_cex :
    (parseM3U (fun _ => "4fzyo82mv")
        "http://aa.com/one.m3u8\nhttp://bb.com/two.m3u8").length = 2 ∧
    ¬ ((parseM3U (fun _ => "4fzyo82mv")
        "http://aa.com/one.m3u8\nhttp://bb.com/two.m3u8").map Channel.id).Nodup :=
  ⟨by decide, by decide⟩

/-! ## EPGFetcher: `fetchGatoEPG` (src/utils/epg.ts, lines 19–118)

`fetch`, `response.json()` and `DOMParser` are external collaborators; an
invocation's environment is the outcome of the network call, modelled by
`FetchOutcome`.  The parsed guide page is modelled by `Doc`: the rows
selected by `querySelectorAll('tr')` and, separately, any row-shaped divs
of the legacy layout (which exist in the document whether or not the code
visits them).  A `Row` carries exactly the features the code queries:
`img[alt]` alt text, the `a[href*="/canal/"]` link text, the
`.titulo_programa`-style title node text, and the `td` cells (with their
`img` presence and text content). -/

/-- Model of `String.prototype.trim` on `String`. -/
def jsTrimS (s : String) : String :=
  (jsTrim s.data).asString

/-- A `td` cell: whether it contains an `img`, and its `textContent`. -/
structure Cell where
  hasImg : Bool
  text : Option String
deriving DecidableEq, Repr

/-- A row-like element with the features the scraper queries. -/
structure Row where
  imgAlt : Option String
  canalLinkText : Option String
  titleText : Option String
  cells : List Cell
deriving DecidableEq, Repr

def isDigitChar (c : Char) : Bool :=
  '0' ≤ c && c ≤ '9'

/-- The regex `/^\d{1,2}:\d{2}$/` used to exclude bare times. -/
def matchesTime : List Char → Bool
  | [h1, c, m1, m2] =>
    isDigitChar h1 && (c == ':') && isDigitChar m1 && isDigitChar m2
  | [h1, h2, c, m1, m2] =>
    isDigitChar h1 && isDigitChar h2 && (c == ':') &&
      isDigitChar m1 && isDigitChar m2
  | _ => false

/-- Channel-name discovery: `img[alt]` alt text first, else the trimmed
text of an `a[href*="/canal/"]` link, else empty. -/
def rowChannelName (row : Row) : String :=
  match row.imgAlt with
  | some alt => alt
  | none =>
    match row.canalLinkText with
    | some t => jsTrimS t
    | none => ""

/-- Value of `textContent?.trim() || ''` of a cell. -/
def cellText (c : Cell) : String :=
  match c.text with
  | some t => jsTrimS t
  | none => ""

/-- Title strategy 1: the dedicated title node
(`.titulo_programa, .programa_actual, div[style*="font-weight:bold"]`),
taken only when its text content is truthy. -/
def rowTitle1 (row : Row) : String :=
  match row.titleText with
  | some t => if t = "" then "" else jsTrimS t
  | none => ""

/-- Title strategy 2: the cell after the channel cell (the first cell
containing an `img` or whose text contains the channel name), accepted
when non-empty, longer than 2 and not a bare time. -/
def rowTitle2 (row : Row) (channelName : String) : String :=
  match row.cells.findIdx? (fun c => c.hasImg ||
      (match c.text with
       | some t => containsSub t.data channelName.data
       | none => false)) with
  | some i =>
    match row.cells.get? (i + 1) with
    | some nextCell =>
      match nextCell.text with
      | some t0 =>
        let t := jsTrimS t0
        if (!(t == "")) && decide (t.length > 2) && !matchesTime t.data
        then t else ""
      | none => ""
    | none => ""
  | none => ""

/-- Title strategy 3: first cell text longer than 5 that does not contain
the channel name (raw or normalized) and is not a bare time. -/
def rowTitle3 (row : Row) (channelName : String) : String :=
  match row.cells.find? (fun c =>
      let txt := cellText c
      decide (txt.length > 5) && !containsSub txt.data channelName.data
        && !containsSub (normalizeChannelName txt).data
              (normalizeChannelName channelName).data
        && !matchesTime txt.data) with
  | some c => cellText c
  | none => ""

/-- The strategy cascade: first non-empty result wins. -/
def rowTitle (row : Row) (channelName : String) : String :=
  let t1 := rowTitle1 row
  if t1 ≠ "" then t1
  else
    let t2 := rowTitle2 row channelName
    if t2 ≠ "" then t2
    else rowTitle3 row channelName

/-- One row of the scrape: skip rows with no channel name or a 1-character
name, find a program title, and only emit when the normalized key is
truthy. -/
def processRow (row : Row) : Option (String × String) :=
  let channelName := rowChannelName row
  if channelName = "" ∨ channelName.length < 2 then none
  else
    let title := rowTitle row channelName
    if title = "" then none
    else
      let key := normalizeChannelName channelName
      if key = "" then none
      else some (key, title)

/-- Assignment `epgMap[key] = title` on a JS object: overwrite in place when the key
exists, append otherwise. -/
def insertEntry (m : List (String × String)) (k v : String) :
    List (String × String) :=
  if (keysOf m).contains k then
    m.map (fun p => if p.1 = k then (k, v) else p)
  else m ++ [(k, v)]

/-- The `rows.forEach` accumulation over the selected rows. -/
def scrapeRows (rows : List Row) : List (String × String) :=
  rows.foldl (fun m row =>
    match processRow row with
    | some (k, v) => insertEntry m k v
    | none => m) []

/-- The parsed guide document: the `tr` elements and the row-shaped divs
of the legacy layout. -/
structure Doc where
  trRows : List Row
  divRows : List Row
deriving DecidableEq, Repr

/-- The scrape over `doc.querySelectorAll('tr')`. -/
def scrapeDoc (doc : Doc) : List (String × String) :=
  scrapeRows doc.trRows

/-- Outcome of `response.json()`: a rejected promise, or the envelope
whose `contents` field is the parsed page (absent/empty modelled `none`). -/
inductive JsonOutcome where
  | malformed : JsonOutcome
  | envelope : Option Doc → JsonOutcome
deriving DecidableEq

/-- The proxy response: its `ok` flag and body. -/
structure GatoResponse where
  ok : Bool
  body : JsonOutcome
deriving DecidableEq

/-- Outcome of `fetch(proxyUrl)`: rejection, or a response. -/
inductive FetchOutcome where
  | networkError : FetchOutcome
  | response : GatoResponse → FetchOutcome
deriving DecidableEq

/-- The `try` block of `fetchGatoEPG`: propagates the rejected fetch, the
thrown non-OK error and the rejected JSON parse; returns `{}` for falsy
`contents` and the scraped mapping otherwise. -/
def fetchBody : FetchOutcome → Except Unit (List (String × String))
  | .networkError => .error ()
  | .response r =>
    if r.ok then
      match r.body with
      | .malformed => .error ()
      | .envelope none => .ok []
      | .envelope (some doc) => .ok (scrapeDoc doc)
    else .error ()

/-- Embedding of `fetchGatoEPG`: the surrounding `catch` turns every
raised error into the empty mapping. -/
def fetchGatoEPG (env : FetchOutcome) : List (String × String) :=
  match fetchBody env with
  | .ok m => m
  | .error _ => []

/-- C5: `fetchGatoEPG` never propagates an exception — every error
raised in the body is caught and yields the empty mapping, and each of the
claim's failure modes (rejected fetch, non-OK response, malformed JSON
envelope, missing `contents`) produces the empty mapping. -/
theorem fetchGatoEPG_never_throws (env : FetchOutcome) :
    (∀ e, fetchBody env = .error e → fetchGatoEPG env = []) ∧
    ((env = .networkError ∨
      (∃ r, env = .response r ∧ r.ok = false) ∨
      (∃ r, env = .response r ∧ r.ok = true ∧ r.body = .malformed) ∨
      (∃ r, env = .response r ∧ r.ok = true ∧ r.body = .envelope none)) →
      fetchGatoEPG env = []) := by
  constructor
  · intro e he
    unfold fetchGatoEPG
    rw [he]
  · rintro (h | ⟨r, hr, hok⟩ | ⟨r, hr, hok, hb⟩ | ⟨r, hr, hok, hb⟩)
    · rw [h]; rfl
    · subst hr
      obtain ⟨ok, body⟩ := r
      cases ok with
      | true => exact Bool.noConfusion hok
      | false => rfl
    · subst hr
      obtain ⟨ok, body⟩ := r
      cases ok with
      | false => exact Bool.noConfusion hok
      | true =>
        cases body with
        | malformed => rfl
        | envelope o => exact JsonOutcome.noConfusion hb
    · subst hr
      obtain ⟨ok, body⟩ := r
      cases ok with
      | false => exact Bool.noConfusion hok
      | true =>
        cases body with
        | malformed => exact JsonOutcome.noConfusion hb
        | envelope o =>
          cases o with
          | none => rfl
          | some doc => exact Option.noConfusion (JsonOutcome.envelope.inj hb)

/-- Witness for `fetchGatoEPG_never_throws`: a rejected network call
yields the empty mapping. -/
theorem fetchGatoEPG_never_throws_witness :
    fetchGatoEPG .networkError = [] :=
  (fetchGatoEPG_never_throws .networkError).2 (Or.inl rfl)

theorem processRow_key_nonempty {row : Row} {k v : String}
    (h : processRow row = some (k, v)) : k ≠ "" := by
  simp only [processRow] at h
  split at h
  · exact Option.noConfusion h
  · split at h
    · exact Option.noConfusion h
    · split at h
      · exact Option.noConfusion h
      · rename_i hkey
        simp only [Option.some.injEq, Prod.mk.injEq] at h
        intro hk
        exact hkey (h.1.trans hk)

theorem insertEntry_mem {m : List (String × String)} {k v : String}
    {p : String × String} (hp : p ∈ insertEntry m k v) :
    p ∈ m ∨ p.1 = k := by
  unfold insertEntry at hp
  split at hp
  · rcases List.mem_map.mp hp with ⟨q, hq, he⟩
    by_cases hqk : q.1 = k
    · right
      rw [if_pos hqk] at he
      rw [← he]
    · left
      rw [if_neg hqk] at he
      rw [← he]
      exact hq
  · rcases List.mem_append.mp hp with h | h
    · left; exact h
    · right
      have he : p = (k, v) := List.mem_singleton.mp h
      rw [he]

theorem scrapeRows_aux_keys (rows : List Row) :
    ∀ m, (∀ p ∈ m, p.1 ≠ "") →
      ∀ p ∈ rows.foldl (fun m row =>
          match processRow row with
          | some (k, v) => insertEntry m k v
          | none => m) m, p.1 ≠ "" := by
  induction rows with
  | nil => intro m hm p hp; exact hm p hp
  | cons r rs ih =>
    intro m hm p hp
    simp only [List.foldl_cons] at hp
    cases hr : processRow r with
    | none =>
      rw [hr] at hp
      exact ih m hm p hp
    | some kv =>
      obtain ⟨k, v⟩ := kv
      rw [hr] at hp
      refine ih _ ?_ p hp
      intro q hq
      rcases insertEntry_mem hq with h | h
      · exact hm q h
      · rw [h]
        exact processRow_key_nonempty hr

/-- C9: every key of the mapping produced by a fetch is non-empty —
an entry whose channel name normalizes to the empty string is never
inserted. -/
theorem fetchGatoEPG_keys_nonempty (env : FetchOutcome) (k v : String)
    (h : (k, v) ∈ fetchGatoEPG env) : k ≠ "" := by
  cases env with
  | networkError => exact absurd h (by simp [fetchGatoEPG, fetchBody])
  | response r =>
    obtain ⟨ok, body⟩ := r
    cases ok with
    | false => exact absurd h (by simp [fetchGatoEPG, fetchBody])
    | true =>
      cases body with
      | malformed => exact absurd h (by simp [fetchGatoEPG, fetchBody])
      | envelope o =>
        cases o with
        | none => exact absurd h (by simp [fetchGatoEPG, fetchBody])
        | some doc =>
          have hmem : (k, v) ∈ scrapeRows doc.trRows := by
            simpa [fetchGatoEPG, fetchBody, scrapeDoc] using h
          unfold scrapeRows at hmem
          exact scrapeRows_aux_keys doc.trRows []
            (by intro p hp; cases hp) (k, v) hmem

/-- A guide row as the scraper expects it: channel from image alt text,
program from the dedicated title node. -/
def sampleRow : Row :=
  { imgAlt := some "Telefe", canalLinkText := none,
    titleText := some "Show", cells := [] }

/-- Witness for `fetchGatoEPG_keys_nonempty` at a concrete successful
fetch with one scraped row. -/
theorem fetchGatoEPG_keys_nonempty_witness :
    ("telefe", "Show") ∈ fetchGatoEPG
        (.response ⟨true, .envelope (some ⟨[sampleRow], []⟩)⟩) ∧
    ("telefe" : String) ≠ "" :=
  ⟨by decide, fetchGatoEPG_keys_nonempty
      (.response ⟨true, .envelope (some ⟨[sampleRow], []⟩)⟩) "telefe" "Show"
      (by decide)⟩

/-- C7 (amended): the scraper iterates only the document's `tr` rows:
the mapping is insensitive to the div-based legacy rows, and a page whose
guide data sits only in div rows yields the empty mapping. -/
theorem fetchGatoEPG_only_tr_rows (trs divs divs' : List Row) :
    fetchGatoEPG (.response ⟨true, .envelope (some ⟨trs, divs⟩)⟩)
      = fetchGatoEPG (.response ⟨true, .envelope (some ⟨trs, divs'⟩)⟩) ∧
    fetchGatoEPG (.response ⟨true, .envelope (some ⟨[], divs⟩)⟩) = [] :=
  ⟨rfl, rfl⟩

/-- Counterexample to C7 as stated: a channel/program row present only in
the div-based legacy layout extracts to a valid pair on its own, yet the
fetched mapping is empty — `querySelectorAll('tr')` never visits it. -/
theorem fetchGatoEPG_div_rows_cex :
    processRow sampleRow = some ("telefe", "Show") ∧
    fetchGatoEPG (.response ⟨true, .envelope (some ⟨[], [sampleRow]⟩)⟩) = [] :=
  ⟨by decide, rfl⟩

end IPTV
